import Mathlib

set_option linter.unusedSectionVars false

/-!
Verification of the header-only binary search tree library `include/BST.h`.

The C++ class `BST<K,V,Comp>` is embedded shallowly: the node graph
`std::unique_ptr<BST_node>` becomes the inductive type `BST.Tree`, the
comparator `Comp` becomes a `LinearOrder` on the key type, iterative
pointer walks become structural recursion, and operations whose C++
counterpart can dereference a null pointer or index a vector out of its
bounds return `Option`/`Except` (`none`/`error` modelling the failure).
`size_t` arithmetic is `Nat` with an explicit `% 2 ^ 64` where the source
can wrap around zero.
-/

namespace BST

/-- A `BST_node` subgraph: `leaf` is a null `std::unique_ptr<node_type>`,
`node k v l r` is a `BST_node` with `data = (k, v)`, `left_child = l` and
`right_child = r`.  The non-owning `parent` pointer is not stored; the
iterator embedding below carries the path to the root explicitly, which is
the same information. -/
inductive Tree (K V : Type) where
  | leaf : Tree K V
  | node (key : K) (value : V) (left : Tree K V) (right : Tree K V) : Tree K V
deriving DecidableEq, Repr

variable {K V : Type} [LinearOrder K]

/-- A freshly allocated `new node_type{key, value, parent}`: both children null. -/
def single (k : K) (v : V) : Tree K V := Tree.node k v Tree.leaf Tree.leaf

/-- In-order listing of the `data` pairs of a subtree (left, node, right). -/
def inorder : Tree K V → List (K × V)
  | Tree.leaf => []
  | Tree.node k v l r => inorder l ++ (k, v) :: inorder r

/-- Pre-order listing of the `data` pairs of a subtree (node, left, right);
this is the order in which `BST::insert(const node_type&)` re-inserts them. -/
def preorder : Tree K V → List (K × V)
  | Tree.leaf => []
  | Tree.node k v l r => (k, v) :: (preorder l ++ preorder r)

/-- The keys stored in a subtree, in in-order. -/
def keys (t : Tree K V) : List K := (inorder t).map Prod.fst

/-- Number of nodes of a subtree. -/
def size : Tree K V → Nat
  | Tree.leaf => 0
  | Tree.node _ _ l r => size l + size r + 1

/-- Number of levels of a subtree (a single node has height 1). -/
def height : Tree K V → Nat
  | Tree.leaf => 0
  | Tree.node _ _ l r => max (height l) (height r) + 1

/-- The BST ordering invariant of the data model: at every node, all keys of
the left subtree compare strictly less than the node's key and all keys of
the right subtree strictly greater.  `¬ k' < k ∧ ¬ k < k'` is key
equivalence under the comparator; for a linear order it is equality, so the
invariant also forces key uniqueness. -/
def Sorted : Tree K V → Prop
  | Tree.leaf => True
  | Tree.node k _ l r =>
      (∀ x ∈ keys l, x < k) ∧ (∀ x ∈ keys r, k < x) ∧ Sorted l ∧ Sorted r

instance instDecidableSorted : (t : Tree K V) → Decidable (Sorted t)
  | Tree.leaf => Decidable.isTrue trivial
  | Tree.node k _ l r =>
      have _hl : Decidable (Sorted l) := instDecidableSorted l
      have _hr : Decidable (Sorted r) := instDecidableSorted r
      inferInstanceAs (Decidable ((∀ x ∈ keys l, x < k) ∧ (∀ x ∈ keys r, k < x) ∧ Sorted l ∧ Sorted r))

/-- The descent of `BST::insert(const key_type&, const value_type&)` once it
has stepped below a node, i.e. the subtree rooted at a child slot, as changed
by the loop of lines 413-428 together with the unconditional
`child.reset(new node_type{key, value, previous_node})` of lines 429-430,
which runs even when the loop stopped via `break` in the equivalent-key
branch.  In that equivalent-key case the node's value is first overwritten,
but the subsequent `reset` on the parent's child pointer destroys the whole
subtree rooted at the matched node and replaces it by the single new node,
because `compare(key, previous_node->data.first)` re-selects exactly the
child slot holding the matched node. -/
def insertAux (k : K) (v : V) : Tree K V → Tree K V
  | Tree.leaf => single k v
  | Tree.node k' v' l r =>
      if ¬ k' < k ∧ ¬ k < k' then single k v
      else if k < k' then Tree.node k' v' (insertAux k v l) r
      else Tree.node k' v' l (insertAux k v r)

/-- `BST::insert(const key_type& key, const value_type& value)` (lines
403-431).  Empty tree: the new node becomes the root.  Key equivalent to the
root's key: the loop breaks immediately with `previous_node == root`, the
root's value is overwritten, and then `compare(key, root->data.first)` is
false, so `root->right_child` is reset to a fresh single node holding
`(key, value)` — the old right subtree is destroyed.  Otherwise the walk
continues below the root, which `insertAux` captures. -/
def insert (t : Tree K V) (k : K) (v : V) : Tree K V :=
  match t with
  | Tree.leaf => single k v
  | Tree.node k' v' l r =>
      if ¬ k' < k ∧ ¬ k < k' then Tree.node k' v l (single k v)
      else if k < k' then Tree.node k' v' (insertAux k v l) r
      else Tree.node k' v' l (insertAux k v r)

/-- Repeated `insert(key, value)` over a list, in the given order.  This is
`BST::insert(const pair_type&)` applied elementwise, as the
`initializer_list` constructor does. -/
def insertList (t : Tree K V) (xs : List (K × V)) : Tree K V :=
  xs.foldl (fun acc p => insert acc p.1 p.2) t

/-- `BST::find(const key_type)` (lines 382-398): walk from the root; keys
equivalent (`!compare ∧ !compare`) — return an iterator to that node,
modelled by `some` of the node's data; smaller — left subtree; greater —
right subtree; fallen off — `end()`, modelled by `none`.  The walk reads the
tree and never modifies it. -/
def find (t : Tree K V) (k : K) : Option (K × V) :=
  match t with
  | Tree.leaf => none
  | Tree.node k' v' l r =>
      if ¬ k' < k ∧ ¬ k < k' then some (k', v')
      else if k < k' then find l k
      else find r k

/-- `BST::insert(const node_type& subtree)` (lines 436-444): insert the
node's own pair, then recursively the left subtree, then the right subtree
(pre-order).  The `leaf` case is unreachable in the source (guarded by
`if (subtree.left_child)` / `if (subtree.right_child)`) and leaves the tree
unchanged. -/
def insertSubtree (t : Tree K V) : Tree K V → Tree K V
  | Tree.leaf => t
  | Tree.node k v l r => insertSubtree (insertSubtree (insert t k v) l) r

/-- The copy constructor `BST(const BST& other)` (lines 117-120): it runs
`insert(*other.root)` with no null check, so copying an EMPTY tree
dereferences a null `unique_ptr` — undefined behaviour, modelled as `none`.
Otherwise the destination starts empty and the source is re-inserted in
pre-order. -/
def copyCtor (other : Tree K V) : Option (Tree K V) :=
  match other with
  | Tree.leaf => none
  | Tree.node k v l r => some (insertSubtree Tree.leaf (Tree.node k v l r))

/-- The move constructor `BST(BST&& other)` (lines 135-138): the fresh
tree's null root is swapped with `other`'s root.  Result: (destination,
source after the move). -/
def moveCtor (other : Tree K V) : Tree K V × Tree K V := (other, Tree.leaf)

/-- Move assignment `operator=(BST&& other)` (lines 143-146):
`root = std::move(other.root)` releases the destination's old nodes, takes
`other`'s root and leaves `other` with a null root.  Result: (destination,
source after the move). -/
def moveAssign (_this other : Tree K V) : Tree K V × Tree K V := (other, Tree.leaf)

/-- `BST::clear()` (lines 209-212): `root.reset(nullptr)`. -/
def clear (_t : Tree K V) : Tree K V := Tree.leaf

/-! ### Iterators

`BST_iterator` holds a raw pointer to its current node and walks the tree
through `left_child`, `right_child` and `parent` pointers.  The embedding
replaces the parent pointer by an explicit path from the current node back
to the root (a zipper context): `Crumb.fromLeft k v r` records that the
current subtree is the left child of a node `(k, v)` whose right subtree is
`r`, and symmetrically for `Crumb.fromRight`. -/

/-- One step of the path from the current node to the root. -/
inductive Crumb (K V : Type) where
  | fromLeft (k : K) (v : V) (right : Tree K V) : Crumb K V
  | fromRight (k : K) (v : V) (left : Tree K V) : Crumb K V
deriving DecidableEq, Repr

/-- A positioned iterator: the current node's data, its two subtrees, and
the path to the root.  A past-the-end iterator (`current == nullptr`) is
`none : Option (Loc K V)`. -/
structure Loc (K V : Type) where
  k : K
  v : V
  left : Tree K V
  right : Tree K V
  ctx : List (Crumb K V)
deriving DecidableEq, Repr

/-- The descent loop of `BST::get_min()` (lines 369-377): from a subtree go
down to the left as much as possible; an empty subtree yields `none`
(`get_min` returns `nullptr` on an empty tree).  The context records the
nodes passed on the way down so that the iterator can later climb back up,
exactly as the parent pointers would allow. -/
def leftmost : Tree K V → List (Crumb K V) → Option (Loc K V)
  | Tree.leaf, _ => none
  | Tree.node k v l r, ctx =>
      match leftmost l (Crumb.fromLeft k v r :: ctx) with
      | some loc => some loc
      | none => some ⟨k, v, l, r, ctx⟩

/-- `BST::begin()` (line 166): an iterator to `get_min()`. -/
def begin (t : Tree K V) : Option (Loc K V) := leftmost t []

/-- The ascent loop of `BST_iterator::operator++` (lines 291-299): go up
while the current node is the right child of its parent; the first ancestor
reached from a left child is the successor; running out of parents yields
the past-the-end iterator.  `t` is the subtree already climbed out of,
reassembled so the ancestor's `Loc` is complete. -/
def climbUp (t : Tree K V) : List (Crumb K V) → Option (Loc K V)
  | [] => none
  | Crumb.fromLeft k v r :: ctx => some ⟨k, v, t, r, ctx⟩
  | Crumb.fromRight k v l :: ctx => climbUp (Tree.node k v l t) ctx

/-- `BST_iterator::operator++` (lines 283-300): if the current node has a
right child, its successor is the minimum of the right subtree; otherwise
climb towards the root as `climbUp` does. -/
def next (loc : Loc K V) : Option (Loc K V) :=
  match loc.right with
  | Tree.node k v l r =>
      leftmost (Tree.node k v l r) (Crumb.fromRight loc.k loc.v loc.left :: loc.ctx)
  | Tree.leaf => climbUp (Tree.node loc.k loc.v loc.left Tree.leaf) loc.ctx

/-- Collect the pairs visited by repeatedly applying `operator++`, starting
from a given iterator; `fuel` bounds the number of steps (the callers below
always pass more fuel than there are nodes, so it never runs out). -/
def iterFrom : Nat → Option (Loc K V) → List (K × V)
  | 0, _ => []
  | _, none => []
  | fuel + 1, some loc => (loc.k, loc.v) :: iterFrom fuel (next loc)

/-- The full in-order visit `for (const auto& x : *this)`: iterate from
`begin()` to `end()` with `operator++`, collecting the dereferenced pairs. -/
def iterList (t : Tree K V) : List (K × V) := iterFrom (size t + 1) (begin t)

/-! ### balance -/

/-- `BST::insert_median` (lines 449-468) on a drained vector `v`: for the
index range `[lo, hi]`, ranges of size two and one insert their elements
directly; otherwise the left-biased median `mid = lo + ((hi - lo) >> 1)` is
inserted first, then the two halves `[lo, mid-1]` and `[mid+1, hi]`
recursively.  `v[i]?` models `std::vector::operator[]`, whose out-of-range
access is undefined behaviour (`none`).  `fuel` only bounds the recursion
depth to make the function total; every caller passes more fuel than the
recursion can consume before returning or failing. -/
def insert_median : Nat → List (K × V) → Nat → Nat → Tree K V → Option (Tree K V)
  | 0, _, _, _, _ => none
  | fuel + 1, v, lo, hi, t =>
      if hi - lo = 1 then
        v[lo]?.bind fun p => v[hi]?.bind fun q =>
          some (insert (insert t p.1 p.2) q.1 q.2)
      else if hi = lo then
        v[lo]?.bind fun p => some (insert t p.1 p.2)
      else
        let mid := lo + (hi - lo) / 2
        v[mid]?.bind fun p =>
          (insert_median fuel v lo (mid - 1) (insert t p.1 p.2)).bind fun t' =>
            insert_median fuel v (mid + 1) hi t'

/-- `BST::balance()` (lines 473-481): drain the tree into a vector through
in-order iteration, `clear()`, then re-insert by medians over the range
`[0, pairs.size() - 1]`.  `pairs.size() - 1` is `size_t` arithmetic: on an
empty tree it wraps around to `2 ^ 64 - 1`, which is modelled by the
explicit `% 2 ^ 64`. -/
def balance (t : Tree K V) : Option (Tree K V) :=
  let pairs := iterList t
  insert_median (pairs.length + 1) pairs 0 ((pairs.length + (2 ^ 64 - 1)) % 2 ^ 64) Tree.leaf

/-! ### Element access -/

/-- The exact message of the `std::out_of_range` thrown by the const
`operator[]` — the spec's `KeyNotFound` error. -/
def keyNotFoundMessage : String :=
  "const operator[] trying to access key not present in given BST"

/-- Const `BST::operator[]` (lines 499-506): `find`, return the value if
the iterator is not `end()`, otherwise throw.  A const member function: the
tree is not modified in either branch (the embedding returns no tree). -/
def atConst (t : Tree K V) (k : K) : Except String V :=
  match find t k with
  | some p => Except.ok p.2
  | none => Except.error keyNotFoundMessage

/-- Non-const `BST::operator[]` (lines 486-494): `find`; if found, a
reference to the stored value (tree unchanged); otherwise
`insert(pair_type{arg_key, value_type{}})` with the default-constructed
value, then dereference `find` again.  Returns the updated tree and the
value the returned reference reads (`none` would mean dereferencing
`end()`). -/
def atMut [Inhabited V] (t : Tree K V) (k : K) : Tree K V × Option V :=
  match find t k with
  | some p => (t, some p.2)
  | none =>
      let t' := insert t k default
      (t', (find t' k).map Prod.snd)

/-- Writing through the reference returned by the non-const `operator[]`:
the reference aliases `data.second` of the node `find` located, so the
assignment overwrites that node's value in place.  This models the C++
store `tree[key] = v`, not a function of the library itself. -/
def assign (t : Tree K V) (k : K) (v : V) : Tree K V :=
  match t with
  | Tree.leaf => Tree.leaf
  | Tree.node k' v' l r =>
      if ¬ k' < k ∧ ¬ k < k' then Tree.node k' v l r
      else if k < k' then Tree.node k' v' (assign l k v) r
      else Tree.node k' v' l (assign r k v)

/-! ### Verification-side characterizations

The definitions below do not embed source code; they are specification
devices used to state and prove properties of the embedded operations. -/

/-- The pairs an iterator still has to visit strictly above the current
subtree: for each ancestor reached from its left child, that ancestor's
pair followed by its right subtree; ancestors reached from the right have
already been visited. -/
def upRem : List (Crumb K V) → List (K × V)
  | [] => []
  | Crumb.fromLeft k v r :: c => (k, v) :: (inorder r ++ upRem c)
  | Crumb.fromRight _ _ _ :: c => upRem c

/-- All pairs a (possibly past-the-end) iterator still visits, current node
included. -/
def remList : Option (Loc K V) → List (K × V)
  | none => []
  | some loc => (loc.k, loc.v) :: (inorder loc.right ++ upRem loc.ctx)

/-- Repeated `insertAux` over a list: the below-the-root tail of a run of
`insert`s, used to factor insertions through subtrees. -/
def insertAuxList (t : Tree K V) (xs : List (K × V)) : Tree K V :=
  xs.foldl (fun acc p => insertAux p.1 p.2 acc) t

/-- The order in which `insert_median` inserts the elements of the range
`[lo, hi]` of `v`: the median first, then the left half, then the right
half.  Mirrors the recursion of `insert_median`, including its fuel. -/
def medianSeq : Nat → List (K × V) → Nat → Nat → List (K × V)
  | 0, _, _, _ => []
  | fuel + 1, v, lo, hi =>
      if hi - lo = 1 then v[lo]?.toList ++ v[hi]?.toList
      else if hi = lo then v[lo]?.toList
      else
        let mid := lo + (hi - lo) / 2
        v[mid]?.toList ++ (medianSeq fuel v lo (mid - 1) ++ medianSeq fuel v (mid + 1) hi)

/-- The contiguous index range `[lo, hi]` of a list, as a sublist. -/
def slice (v : List (K × V)) (lo hi : Nat) : List (K × V) :=
  (v.drop lo).take (hi - lo + 1)

/-- The balanced tree obtained from a sorted list by taking the left-biased
median as the root and recursing on the two halves; the closed form of what
`insert_median` builds. -/
def buildBal : List (K × V) → Tree K V
  | [] => Tree.leaf
  | [a] => single a.1 a.2
  | a :: b :: rest =>
      Tree.node ((a :: b :: rest).get ⟨(rest.length + 1) / 2, by simp; omega⟩).1
        ((a :: b :: rest).get ⟨(rest.length + 1) / 2, by simp; omega⟩).2
        (buildBal ((a :: b :: rest).take ((rest.length + 1) / 2)))
        (buildBal ((a :: b :: rest).drop ((rest.length + 1) / 2 + 1)))
termination_by l => l.length
decreasing_by
  all_goals simp [List.length_take, List.length_drop]
  all_goals omega

/-! ## Lemmas -/

variable {k k' x : K} {v v' : V} {l r t : Tree K V} {ctx : List (Crumb K V)}
variable {loc : Loc K V} {p : K × V} {xs ys : List (K × V)}

@[simp] theorem inorder_leaf : inorder (Tree.leaf : Tree K V) = [] := rfl

@[simp] theorem inorder_node :
    inorder (Tree.node k v l r) = inorder l ++ (k, v) :: inorder r := rfl

@[simp] theorem inorder_single : inorder (single k v) = [(k, v)] := rfl

@[simp] theorem keys_leaf : keys (Tree.leaf : Tree K V) = [] := rfl

@[simp] theorem keys_node : keys (Tree.node k v l r) = keys l ++ k :: keys r := by
  simp [keys]

@[simp] theorem keys_single : keys (single k v) = [k] := rfl

@[simp] theorem size_leaf : size (Tree.leaf : Tree K V) = 0 := rfl

@[simp] theorem size_node : size (Tree.node k v l r) = size l + size r + 1 := rfl

theorem mem_keys_iff : x ∈ keys t ↔ ∃ v, (x, v) ∈ inorder t := by
  unfold keys
  rw [List.mem_map]
  constructor
  · rintro ⟨⟨a, b⟩, h, rfl⟩
    exact ⟨b, h⟩
  · rintro ⟨v, h⟩
    exact ⟨(x, v), h, rfl⟩

theorem equiv_iff_eq {a b : K} : (¬ a < b ∧ ¬ b < a) ↔ a = b := by
  constructor
  · rintro ⟨h1, h2⟩
    exact le_antisymm (not_lt.mp h2) (not_lt.mp h1)
  · rintro rfl
    exact ⟨lt_irrefl a, lt_irrefl a⟩

theorem inorder_length_eq_size : (inorder t).length = size t := by
  induction t with
  | leaf => rfl
  | node k v l r ihl ihr => simp [ihl, ihr]; omega

/-! ### Branch lemmas for `insert`, `insertAux`, `find`, `assign` -/

theorem insert_leaf : insert (Tree.leaf : Tree K V) k v = single k v := rfl

theorem insert_node_self :
    insert (Tree.node k v' l r) k v = Tree.node k v l (single k v) := by
  simp only [insert]
  rw [if_pos ⟨lt_irrefl k, lt_irrefl k⟩]

theorem insert_node_lt (h : k < k') :
    insert (Tree.node k' v' l r) k v = Tree.node k' v' (insertAux k v l) r := by
  simp only [insert]
  rw [if_neg (fun hc => hc.2 h), if_pos h]

theorem insert_node_gt (h : k' < k) :
    insert (Tree.node k' v' l r) k v = Tree.node k' v' l (insertAux k v r) := by
  simp only [insert]
  rw [if_neg (fun hc => hc.1 h), if_neg (lt_asymm h)]

theorem insertAux_leaf : insertAux k v (Tree.leaf : Tree K V) = single k v := rfl

theorem insertAux_node_self : insertAux k v (Tree.node k v' l r) = single k v := by
  simp only [insertAux]
  rw [if_pos ⟨lt_irrefl k, lt_irrefl k⟩]

theorem insertAux_node_lt (h : k < k') :
    insertAux k v (Tree.node k' v' l r) = Tree.node k' v' (insertAux k v l) r := by
  simp only [insertAux]
  rw [if_neg (fun hc => hc.2 h), if_pos h]

theorem insertAux_node_gt (h : k' < k) :
    insertAux k v (Tree.node k' v' l r) = Tree.node k' v' l (insertAux k v r) := by
  simp only [insertAux]
  rw [if_neg (fun hc => hc.1 h), if_neg (lt_asymm h)]

theorem find_leaf : find (Tree.leaf : Tree K V) k = none := rfl

theorem find_node_self : find (Tree.node k v' l r) k = some (k, v') := by
  simp only [find]
  rw [if_pos ⟨lt_irrefl k, lt_irrefl k⟩]

theorem find_node_lt (h : k < k') : find (Tree.node k' v' l r) k = find l k := by
  simp only [find]
  rw [if_neg (fun hc => hc.2 h), if_pos h]

theorem find_node_gt (h : k' < k) : find (Tree.node k' v' l r) k = find r k := by
  simp only [find]
  rw [if_neg (fun hc => hc.1 h), if_neg (lt_asymm h)]

theorem find_single : find (single k v) k = some (k, v) := find_node_self

/-! ### `find` against the tree contents -/

theorem find_eq_some_imp :
    ∀ {t : Tree K V} {p}, find t k = some p → p.1 = k ∧ p ∈ inorder t := by
  intro t
  induction t with
  | leaf => intro p h; simp [find] at h
  | node k' v' l r ihl ihr =>
    intro p h
    rcases lt_trichotomy k k' with hlt | rfl | hgt
    · rw [find_node_lt hlt] at h
      obtain ⟨h1, h2⟩ := ihl h
      exact ⟨h1, by simp [h2]⟩
    · rw [find_node_self] at h
      obtain rfl := Option.some.inj h
      exact ⟨rfl, by simp⟩
    · rw [find_node_gt hgt] at h
      obtain ⟨h1, h2⟩ := ihr h
      exact ⟨h1, by simp [h2]⟩

theorem find_eq_none_of_not_mem (h : k ∉ keys t) : find t k = none := by
  cases hf : find t k with
  | none => rfl
  | some p =>
    obtain ⟨h1, h2⟩ := find_eq_some_imp hf
    have hm : (k, p.2) ∈ inorder t := by
      rw [← h1]
      simpa using h2
    exact absurd (mem_keys_iff.mpr ⟨p.2, hm⟩) h

theorem find_eq_some_of_mem :
    ∀ {t : Tree K V}, Sorted t → (k, v) ∈ inorder t → find t k = some (k, v) := by
  intro t
  induction t with
  | leaf => intro _ hm; simp at hm
  | node k' v' l r ihl ihr =>
    intro hs hm
    obtain ⟨hbl, hbr, hsl, hsr⟩ := hs
    simp only [inorder_node, List.mem_append, List.mem_cons, Prod.mk.injEq] at hm
    rcases hm with hml | ⟨rfl, rfl⟩ | hmr
    · have hk : k < k' := hbl k (mem_keys_iff.mpr ⟨v, hml⟩)
      rw [find_node_lt hk]
      exact ihl hsl hml
    · exact find_node_self
    · have hk : k' < k := hbr k (mem_keys_iff.mpr ⟨v, hmr⟩)
      rw [find_node_gt hk]
      exact ihr hsr hmr

/-! ### Fresh-key insertion -/

theorem keys_insertAux_subset :
    ∀ {t : Tree K V}, x ∈ keys (insertAux k v t) → x = k ∨ x ∈ keys t := by
  intro t
  induction t with
  | leaf =>
    intro h
    rw [insertAux_leaf, keys_single] at h
    exact Or.inl (List.mem_singleton.mp h)
  | node k' v' l r ihl ihr =>
    intro h
    rcases lt_trichotomy k k' with hlt | rfl | hgt
    · rw [insertAux_node_lt hlt, keys_node] at h
      rcases List.mem_append.mp h with h1 | h2
      · rcases ihl h1 with h3 | h3
        · exact Or.inl h3
        · exact Or.inr (by simp [h3])
      · exact Or.inr (by simp [List.mem_append.mpr (Or.inr h2)])
    · rw [insertAux_node_self, keys_single] at h
      exact Or.inl (List.mem_singleton.mp h)
    · rw [insertAux_node_gt hgt, keys_node] at h
      rcases List.mem_append.mp h with h1 | h2
      · exact Or.inr (by simp [h1])
      · rcases List.mem_cons.mp h2 with h3 | h3
        · exact Or.inr (by simp [h3])
        · rcases ihr h3 with h4 | h4
          · exact Or.inl h4
          · exact Or.inr (by simp [h4])

theorem not_mem_keys_left (h : k ∉ keys (Tree.node k' v' l r)) : k ∉ keys l := by
  intro hm
  exact h (by simp [hm])

theorem not_mem_keys_right (h : k ∉ keys (Tree.node k' v' l r)) : k ∉ keys r := by
  intro hm
  exact h (by simp [hm])

theorem ne_of_not_mem_keys (h : k ∉ keys (Tree.node k' v' l r)) : k ≠ k' := by
  rintro rfl
  exact h (by simp)

theorem mem_inorder_insertAux :
    ∀ {t : Tree K V}, k ∉ keys t →
      ∀ p, p ∈ inorder (insertAux k v t) ↔ p ∈ inorder t ∨ p = (k, v) := by
  intro t
  induction t with
  | leaf =>
    intro _ p
    rw [insertAux_leaf]
    simp
  | node k' v' l r ihl ihr =>
    intro hk p
    rcases lt_trichotomy k k' with hlt | rfl | hgt
    · rw [insertAux_node_lt hlt]
      simp only [inorder_node, List.mem_append, List.mem_cons]
      rw [ihl (not_mem_keys_left hk) p]
      tauto
    · exact absurd rfl (ne_of_not_mem_keys hk)
    · rw [insertAux_node_gt hgt]
      simp only [inorder_node, List.mem_append, List.mem_cons]
      rw [ihr (not_mem_keys_right hk) p]
      tauto

theorem size_insertAux :
    ∀ {t : Tree K V}, k ∉ keys t → size (insertAux k v t) = size t + 1 := by
  intro t
  induction t with
  | leaf => intro _; rfl
  | node k' v' l r ihl ihr =>
    intro hk
    rcases lt_trichotomy k k' with hlt | rfl | hgt
    · rw [insertAux_node_lt hlt]
      simp [ihl (not_mem_keys_left hk)]
      omega
    · exact absurd rfl (ne_of_not_mem_keys hk)
    · rw [insertAux_node_gt hgt]
      simp [ihr (not_mem_keys_right hk)]
      omega

theorem find_insertAux_self :
    ∀ {t : Tree K V}, k ∉ keys t → find (insertAux k v t) k = some (k, v) := by
  intro t
  induction t with
  | leaf => intro _; rw [insertAux_leaf]; exact find_single
  | node k' v' l r ihl ihr =>
    intro hk
    rcases lt_trichotomy k k' with hlt | rfl | hgt
    · rw [insertAux_node_lt hlt, find_node_lt hlt]
      exact ihl (not_mem_keys_left hk)
    · exact absurd rfl (ne_of_not_mem_keys hk)
    · rw [insertAux_node_gt hgt, find_node_gt hgt]
      exact ihr (not_mem_keys_right hk)

theorem insert_eq_insertAux (h : k ∉ keys t) : insert t k v = insertAux k v t := by
  cases t with
  | leaf => rfl
  | node k' v' l r =>
    rcases lt_trichotomy k k' with hlt | rfl | hgt
    · rw [insert_node_lt hlt, insertAux_node_lt hlt]
    · exact absurd rfl (ne_of_not_mem_keys h)
    · rw [insert_node_gt hgt, insertAux_node_gt hgt]

theorem keys_insert_subset :
    x ∈ keys (insert t k v) → x = k ∨ x ∈ keys t := by
  cases t with
  | leaf =>
    intro h
    rw [insert_leaf, keys_single] at h
    exact Or.inl (List.mem_singleton.mp h)
  | node k' v' l r =>
    intro h
    rcases lt_trichotomy k k' with hlt | rfl | hgt
    · rw [insert_node_lt hlt, keys_node] at h
      rcases List.mem_append.mp h with h1 | h2
      · rcases keys_insertAux_subset h1 with h3 | h3
        · exact Or.inl h3
        · exact Or.inr (by simp [h3])
      · exact Or.inr (by simp [List.mem_append.mpr (Or.inr h2)])
    · rw [insert_node_self, keys_node, keys_single] at h
      rcases List.mem_append.mp h with h1 | h2
      · exact Or.inr (by simp [h1])
      · rcases List.mem_cons.mp h2 with h3 | h3
        · exact Or.inr (by simp [h3])
        · exact Or.inl (List.mem_singleton.mp h3)
    · rw [insert_node_gt hgt, keys_node] at h
      rcases List.mem_append.mp h with h1 | h2
      · exact Or.inr (by simp [h1])
      · rcases List.mem_cons.mp h2 with h3 | h3
        · exact Or.inr (by simp [h3])
        · rcases keys_insertAux_subset h3 with h4 | h4
          · exact Or.inl h4
          · exact Or.inr (by simp [h4])

/-! ### Iteration from `begin()` visits exactly the in-order list -/

@[simp] theorem upRem_nil : upRem ([] : List (Crumb K V)) = [] := rfl

@[simp] theorem upRem_fromLeft :
    upRem (Crumb.fromLeft k v r :: ctx) = (k, v) :: (inorder r ++ upRem ctx) := rfl

@[simp] theorem upRem_fromRight :
    upRem (Crumb.fromRight k v l :: ctx) = upRem ctx := rfl

@[simp] theorem remList_none : remList (none : Option (Loc K V)) = [] := rfl

@[simp] theorem remList_some :
    remList (some loc) = (loc.k, loc.v) :: (inorder loc.right ++ upRem loc.ctx) := rfl

theorem leftmost_node_eq_some (k1 : K) (v1 : V) (l1 r1 : Tree K V)
    (ctx1 : List (Crumb K V)) :
    ∃ loc, leftmost (Tree.node k1 v1 l1 r1) ctx1 = some loc := by
  simp only [leftmost]
  cases leftmost l1 (Crumb.fromLeft k1 v1 r1 :: ctx1) with
  | none => exact ⟨_, rfl⟩
  | some loc => exact ⟨loc, rfl⟩

theorem leftmost_remList :
    ∀ {t : Tree K V}, t ≠ Tree.leaf →
      ∀ ctx, remList (leftmost t ctx) = inorder t ++ upRem ctx := by
  intro t
  induction t with
  | leaf => intro h; exact absurd rfl h
  | node k v l r ihl _ =>
    intro _ ctx
    by_cases hl : l = Tree.leaf
    · subst hl
      rw [show leftmost (Tree.node k v Tree.leaf r) ctx
            = some ⟨k, v, Tree.leaf, r, ctx⟩ from rfl]
      simp
    · obtain ⟨loc, hloc⟩ := leftmost_node_eq_some k v l r ctx
      have hrec := ihl hl (Crumb.fromLeft k v r :: ctx)
      have hstep : leftmost (Tree.node k v l r) ctx
          = leftmost l (Crumb.fromLeft k v r :: ctx) := by
        simp only [leftmost]
        cases hx : leftmost l (Crumb.fromLeft k v r :: ctx) with
        | none =>
          exfalso
          cases l with
          | leaf => exact hl rfl
          | node k2 v2 l2 r2 =>
            obtain ⟨loc2, hloc2⟩ := leftmost_node_eq_some k2 v2 l2 r2
              (Crumb.fromLeft k v r :: ctx)
            rw [hx] at hloc2
            exact Option.noConfusion hloc2
        | some loc2 => rfl
      rw [hstep, hrec]
      simp

theorem climbUp_remList :
    ∀ (ctx : List (Crumb K V)) (t : Tree K V), remList (climbUp t ctx) = upRem ctx := by
  intro ctx
  induction ctx with
  | nil => intro t; rfl
  | cons c ctx ih =>
    intro t
    cases c with
    | fromLeft k v r => rfl
    | fromRight k v l =>
      simp only [upRem_fromRight]
      exact ih (Tree.node k v l t)

theorem next_remList :
    ∀ (loc : Loc K V), remList (next loc) = inorder loc.right ++ upRem loc.ctx := by
  rintro ⟨k, v, left, right, ctx⟩
  cases right with
  | leaf =>
    show remList (climbUp (Tree.node k v left Tree.leaf) ctx) = _
    rw [climbUp_remList]
    simp
  | node k2 v2 l2 r2 =>
    show remList (leftmost (Tree.node k2 v2 l2 r2) (Crumb.fromRight k v left :: ctx)) = _
    rw [leftmost_remList (by simp) (Crumb.fromRight k v left :: ctx)]
    simp

theorem iterFrom_eq_remList :
    ∀ (fuel : Nat) (pos : Option (Loc K V)),
      (remList pos).length ≤ fuel → iterFrom fuel pos = remList pos := by
  intro fuel
  induction fuel with
  | zero =>
    intro pos h
    cases pos with
    | none => rfl
    | some loc => simp at h
  | succ f ih =>
    intro pos h
    cases pos with
    | none => rfl
    | some loc =>
      show (loc.k, loc.v) :: iterFrom f (next loc) = _
      rw [ih (next loc) (by rw [next_remList]; simp [List.length_append] at h ⊢; omega)]
      rw [next_remList]
      rfl

theorem iterList_eq_inorder : ∀ (t : Tree K V), iterList t = inorder t := by
  intro t
  by_cases h : t = Tree.leaf
  · subst h; rfl
  · unfold iterList begin
    have hrem : remList (leftmost t []) = inorder t := by
      rw [leftmost_remList h, upRem_nil, List.append_nil]
    rw [iterFrom_eq_remList _ _ (by rw [hrem, inorder_length_eq_size]; omega), hrem]

/-! ### Folding insertions over lists -/

theorem insertList_nil : insertList t [] = t := rfl

theorem insertList_cons : insertList t (p :: xs) = insertList (insert t p.1 p.2) xs := rfl

theorem insertList_append :
    insertList t (xs ++ ys) = insertList (insertList t xs) ys := by
  simp [insertList, List.foldl_append]

theorem insertAuxList_nil : insertAuxList t [] = t := rfl

theorem insertAuxList_cons :
    insertAuxList t (p :: xs) = insertAuxList (insertAux p.1 p.2 t) xs := rfl

theorem insertAuxList_append :
    insertAuxList t (xs ++ ys) = insertAuxList (insertAuxList t xs) ys := by
  simp [insertAuxList, List.foldl_append]

theorem insertList_eq_insertAuxList :
    ∀ (xs : List (K × V)) {t : Tree K V}, (xs.map Prod.fst).Nodup →
      (∀ p ∈ xs, p.1 ∉ keys t) → insertList t xs = insertAuxList t xs := by
  intro xs
  induction xs with
  | nil => intro t _ _; rfl
  | cons p xs ih =>
    intro t hnd hf
    rw [insertList_cons, insertAuxList_cons,
      insert_eq_insertAux (hf p (List.mem_cons_self p xs))]
    rw [List.map_cons] at hnd
    obtain ⟨hp1, hxs⟩ := List.nodup_cons.mp hnd
    apply ih hxs
    intro q hq hmem
    rcases keys_insertAux_subset hmem with he | hm
    · exact hp1 (he ▸ List.mem_map_of_mem Prod.fst hq)
    · exact hf q (List.mem_cons_of_mem p hq) hm

theorem insertAuxList_node_left :
    ∀ (xs : List (K × V)) {l : Tree K V}, (∀ p ∈ xs, p.1 < k) →
      insertAuxList (Tree.node k v l r) xs = Tree.node k v (insertAuxList l xs) r := by
  intro xs
  induction xs with
  | nil => intro l _; rfl
  | cons p xs ih =>
    intro l hlt
    rw [insertAuxList_cons, insertAux_node_lt (hlt p (List.mem_cons_self p xs)),
      insertAuxList_cons]
    exact ih (fun q hq => hlt q (List.mem_cons_of_mem p hq))

theorem insertAuxList_node_right :
    ∀ (xs : List (K × V)) {r : Tree K V}, (∀ p ∈ xs, k < p.1) →
      insertAuxList (Tree.node k v l r) xs = Tree.node k v l (insertAuxList r xs) := by
  intro xs
  induction xs with
  | nil => intro r _; rfl
  | cons p xs ih =>
    intro r hlt
    rw [insertAuxList_cons, insertAux_node_gt (hlt p (List.mem_cons_self p xs)),
      insertAuxList_cons]
    exact ih (fun q hq => hlt q (List.mem_cons_of_mem p hq))

/-! ### The median insertion order -/

theorem mem_medianSeq :
    ∀ (fuel : Nat) (v : List (K × V)) (lo hi : Nat) (p : K × V), lo ≤ hi →
      p ∈ medianSeq fuel v lo hi → ∃ i, lo ≤ i ∧ i ≤ hi ∧ v[i]? = some p := by
  intro fuel
  induction fuel with
  | zero => intro v lo hi p _ hp; simp [medianSeq] at hp
  | succ f ih =>
    intro v lo hi p hle hp
    simp only [medianSeq] at hp
    split at hp
    case isTrue h1 =>
      rcases List.mem_append.mp hp with h | h
      · exact ⟨lo, le_rfl, by omega, Option.mem_toList.mp h⟩
      · exact ⟨hi, by omega, le_rfl, Option.mem_toList.mp h⟩
    case isFalse h1 =>
      split at hp
      case isTrue h2 =>
        exact ⟨lo, le_rfl, by omega, Option.mem_toList.mp hp⟩
      case isFalse h2 =>
        rcases List.mem_append.mp hp with h | h
        · exact ⟨lo + (hi - lo) / 2, by omega, by omega, Option.mem_toList.mp h⟩
        · rcases List.mem_append.mp h with h3 | h3
          · obtain ⟨i, hi1, hi2, hi3⟩ := ih v lo (lo + (hi - lo) / 2 - 1) p (by omega) h3
            exact ⟨i, hi1, by omega, hi3⟩
          · obtain ⟨i, hi1, hi2, hi3⟩ := ih v (lo + (hi - lo) / 2 + 1) hi p (by omega) h3
            exact ⟨i, by omega, hi2, hi3⟩

theorem slice_cons {v : List (K × V)} {lo : Nat} (h : lo < v.length) (n : Nat) :
    (v.drop lo).take (n + 1) = v[lo] :: ((v.drop (lo + 1)).take n) := by
  rw [List.drop_eq_getElem_cons h, List.take_succ_cons]

theorem medianSeq_perm :
    ∀ (fuel : Nat) (v : List (K × V)) (lo hi : Nat),
      lo ≤ hi → hi < v.length → hi - lo < fuel →
      (medianSeq fuel v lo hi).Perm (slice v lo hi) := by
  intro fuel
  induction fuel with
  | zero => intro v lo hi _ _ h; exact absurd h (Nat.not_lt_zero _)
  | succ f ih =>
    intro v lo hi hle hlen hfuel
    have hlo : lo < v.length := by omega
    simp only [medianSeq]
    by_cases h1 : hi - lo = 1
    · rw [if_pos h1]
      rw [List.getElem?_eq_getElem hlo, List.getElem?_eq_getElem (by omega : hi < v.length)]
      have hs : slice v lo hi = [v[lo], v[hi]] := by
        unfold slice
        rw [h1, slice_cons hlo 1, slice_cons (by omega : lo + 1 < v.length) 0]
        have : hi = lo + 1 := by omega
        subst this
        rfl
      rw [hs]
      rfl
    · rw [if_neg h1]
      by_cases h2 : hi = lo
      · rw [if_pos h2]
        rw [List.getElem?_eq_getElem hlo]
        have hs : slice v lo hi = [v[lo]] := by
          unfold slice
          rw [show hi - lo + 1 = 1 by omega, slice_cons hlo 0]
          rfl
        rw [hs]
        rfl
      · rw [if_neg h2]
        have hgap : 2 ≤ hi - lo := by omega
        set mid := lo + (hi - lo) / 2 with hmid
        have hmidlt : mid < v.length := by omega
        have hmid1 : lo + 1 ≤ mid := by omega
        have hmid2 : mid + 1 ≤ hi := by omega
        rw [List.getElem?_eq_getElem hmidlt]
        have ihl := ih v lo (mid - 1) (by omega) (by omega) (by omega)
        have ihr := ih v (mid + 1) hi (by omega) (by omega) (by omega)
        have hsplit : slice v lo hi
            = slice v lo (mid - 1) ++ v[mid] :: slice v (mid + 1) hi := by
          unfold slice
          have e1 : hi - lo + 1 = (mid - lo) + (hi - mid + 1) := by omega
          rw [e1, List.take_add]
          congr 1
          · rw [show mid - 1 - lo + 1 = mid - lo from by omega]
          · rw [List.drop_drop, show lo + (mid - lo) = mid from by omega,
              List.drop_eq_getElem_cons hmidlt, List.take_succ_cons,
              show hi - (mid + 1) + 1 = hi - mid from by omega]
        rw [hsplit]
        exact (List.Perm.cons _ (List.Perm.append ihl ihr)).trans List.perm_middle.symm

theorem slice_pair {v : List (K × V)} {lo hi : Nat} (h1 : hi - lo = 1) (hle : lo ≤ hi)
    (hlen : hi < v.length) : slice v lo hi = [v[lo], v[hi]] := by
  have hlo : lo < v.length := by omega
  unfold slice
  rw [h1, slice_cons hlo 1, slice_cons (by omega : lo + 1 < v.length) 0]
  have : hi = lo + 1 := by omega
  subst this
  rfl

theorem slice_one {v : List (K × V)} {lo hi : Nat} (h2 : hi = lo)
    (hlen : hi < v.length) : slice v lo hi = [v[lo]] := by
  unfold slice
  rw [show hi - lo + 1 = 1 by omega, slice_cons (by omega : lo < v.length) 0]
  rfl

/-! ### The closed-form balanced tree -/

theorem buildBal_two_le :
    ∀ (w : List (K × V)), 2 ≤ w.length →
      ∃ p, w[(w.length - 1) / 2]? = some p ∧
        buildBal w = Tree.node p.1 p.2
          (buildBal (w.take ((w.length - 1) / 2)))
          (buildBal (w.drop ((w.length - 1) / 2 + 1))) := by
  intro w h
  match w with
  | a :: b :: rest =>
    have hm : (rest.length + 1) / 2 < (a :: b :: rest).length := by simp; omega
    refine ⟨(a :: b :: rest).get ⟨(rest.length + 1) / 2, hm⟩, ?_, ?_⟩
    · have he : (a :: b :: rest).length - 1 = rest.length + 1 := by simp
      rw [List.get_eq_getElem, he]
      exact List.getElem?_eq_getElem hm
    · simp only [buildBal, List.length_cons]
      rfl

theorem buildBal_pair (a b : K × V) :
    buildBal [a, b] = Tree.node a.1 a.2 Tree.leaf (single b.1 b.2) := by
  simp [buildBal]

theorem inorder_buildBal :
    ∀ (n : Nat) (w : List (K × V)), w.length ≤ n → inorder (buildBal w) = w := by
  intro n
  induction n with
  | zero =>
    intro w h
    have hw : w = [] := List.eq_nil_of_length_eq_zero (by omega)
    subst hw
    simp [buildBal]
  | succ n ih =>
    intro w h
    match w with
    | [] => simp [buildBal]
    | [a] => simp [buildBal, single]
    | a :: b :: rest =>
      obtain ⟨p, hp1, hp2⟩ := buildBal_two_le (a :: b :: rest) (by simp)
      have hlen : (a :: b :: rest).length = rest.length + 2 := by simp
      have hmlt : ((a :: b :: rest).length - 1) / 2 < (a :: b :: rest).length := by
        rw [hlen]; omega
      have hn : rest.length + 2 ≤ n + 1 := by rw [← hlen]; exact h
      rw [hp2, inorder_node,
        ih _ (by rw [List.length_take, hlen]; omega),
        ih _ (by rw [List.length_drop, hlen]; omega)]
      have hp : (a :: b :: rest)[((a :: b :: rest).length - 1) / 2] = p := by
        rw [List.getElem?_eq_getElem hmlt] at hp1
        exact Option.some.inj hp1
      rw [Prod.mk.eta, ← hp, ← List.drop_eq_getElem_cons hmlt, List.take_append_drop]

theorem clog_two_two : Nat.clog 2 2 = 1 := by
  rw [Nat.clog_of_two_le one_lt_two le_rfl]
  norm_num

theorem height_buildBal :
    ∀ (n : Nat) (w : List (K × V)), w.length ≤ n →
      height (buildBal w) ≤ Nat.clog 2 (w.length + 1) := by
  intro n
  induction n with
  | zero =>
    intro w h
    have hw : w = [] := List.eq_nil_of_length_eq_zero (by omega)
    subst hw
    simp [buildBal, height]
  | succ n ih =>
    intro w h
    match w with
    | [] => simp [buildBal, height]
    | [a] =>
      rw [show buildBal [a] = single a.1 a.2 from by simp [buildBal]]
      show height (single a.1 a.2) ≤ Nat.clog 2 2
      rw [clog_two_two]
      simp [single, height]
    | a :: b :: rest =>
      obtain ⟨p, hp1, hp2⟩ := buildBal_two_le (a :: b :: rest) (by simp)
      have hlen : (a :: b :: rest).length = rest.length + 2 := by simp
      have hn : rest.length + 2 ≤ n + 1 := by rw [← hlen]; exact h
      rw [hp2]
      simp only [height]
      set m := ((a :: b :: rest).length - 1) / 2 with hm
      have hmval : m = (rest.length + 1) / 2 := by rw [hm, hlen]; omega
      have hmle : m ≤ rest.length + 1 := by omega
      have htake : ((a :: b :: rest).take m).length = m := by
        rw [List.length_take, hlen]
        omega
      have hdrop : ((a :: b :: rest).drop (m + 1)).length = rest.length + 1 - m := by
        rw [List.length_drop, hlen]
        omega
      have h1 : height (buildBal ((a :: b :: rest).take m)) ≤ Nat.clog 2 (m + 1) := by
        have hb := ih ((a :: b :: rest).take m) (by rw [htake]; omega)
        rwa [htake] at hb
      have h2 : height (buildBal ((a :: b :: rest).drop (m + 1)))
          ≤ Nat.clog 2 (rest.length + 2 - m) := by
        have hb := ih ((a :: b :: rest).drop (m + 1)) (by rw [hdrop]; omega)
        rw [hdrop] at hb
        rwa [show rest.length + 1 - m + 1 = rest.length + 2 - m from by omega] at hb
      have hrec : Nat.clog 2 ((a :: b :: rest).length + 1)
          = Nat.clog 2 ((rest.length + 4) / 2) + 1 := by
        rw [hlen, Nat.clog_of_two_le one_lt_two (by omega),
          show rest.length + 2 + 1 + 2 - 1 = rest.length + 4 from by omega]
      have hc1 : Nat.clog 2 (m + 1) ≤ Nat.clog 2 ((rest.length + 4) / 2) :=
        Nat.clog_mono_right 2 (by omega)
      have hc2 : Nat.clog 2 (rest.length + 2 - m) ≤ Nat.clog 2 ((rest.length + 4) / 2) :=
        Nat.clog_mono_right 2 (by omega)
      rw [hrec]
      omega

/-! ### `insert_median` inserts exactly the median sequence -/

theorem insert_median_eq_insertList :
    ∀ (fuel : Nat) (v : List (K × V)) (lo hi : Nat) (t : Tree K V),
      lo ≤ hi → hi < v.length → hi - lo < fuel →
      insert_median fuel v lo hi t = some (insertList t (medianSeq fuel v lo hi)) := by
  intro fuel
  induction fuel with
  | zero => intro v lo hi t _ _ h; exact absurd h (Nat.not_lt_zero _)
  | succ f ih =>
    intro v lo hi t hle hlen hfuel
    have hlo : lo < v.length := by omega
    simp only [insert_median, medianSeq]
    by_cases h1 : hi - lo = 1
    · rw [if_pos h1, if_pos h1, List.getElem?_eq_getElem hlo,
        List.getElem?_eq_getElem hlen, Option.some_bind, Option.some_bind]
      rfl
    · rw [if_neg h1, if_neg h1]
      by_cases h2 : hi = lo
      · rw [if_pos h2, if_pos h2, List.getElem?_eq_getElem hlo, Option.some_bind]
        rfl
      · rw [if_neg h2, if_neg h2]
        have hmidlt : lo + (hi - lo) / 2 < v.length := by omega
        rw [List.getElem?_eq_getElem hmidlt, Option.some_bind,
          ih v lo (lo + (hi - lo) / 2 - 1) _ (by omega) (by omega) (by omega),
          Option.some_bind,
          ih v (lo + (hi - lo) / 2 + 1) hi _ (by omega) (by omega) (by omega)]
        rw [show (some v[lo + (hi - lo) / 2]).toList
              ++ (medianSeq f v lo (lo + (hi - lo) / 2 - 1)
                  ++ medianSeq f v (lo + (hi - lo) / 2 + 1) hi)
            = v[lo + (hi - lo) / 2]
              :: (medianSeq f v lo (lo + (hi - lo) / 2 - 1)
                  ++ medianSeq f v (lo + (hi - lo) / 2 + 1) hi) from rfl,
          insertList_cons, insertList_append]

/-! ### Median insertion into an empty tree builds the balanced tree -/

theorem insertAuxList_medianSeq :
    ∀ (fuel : Nat) (v : List (K × V)) (lo hi : Nat),
      List.Pairwise (fun p q : K × V => p.1 < q.1) v →
      lo ≤ hi → hi < v.length → hi - lo < fuel →
      insertAuxList Tree.leaf (medianSeq fuel v lo hi) = buildBal (slice v lo hi) := by
  intro fuel
  induction fuel with
  | zero => intro v lo hi _ _ _ h; exact absurd h (Nat.not_lt_zero _)
  | succ f ih =>
    intro v lo hi hv hle hlen hfuel
    have hlo : lo < v.length := by omega
    simp only [medianSeq]
    by_cases h1 : hi - lo = 1
    · rw [if_pos h1, List.getElem?_eq_getElem hlo, List.getElem?_eq_getElem hlen,
        slice_pair h1 hle hlen, buildBal_pair]
      have hab : v[lo].1 < v[hi].1 :=
        List.pairwise_iff_getElem.mp hv lo hi hlo hlen (by omega)
      show insertAux v[hi].1 v[hi].2 (single v[lo].1 v[lo].2) = _
      rw [show single v[lo].1 v[lo].2
            = Tree.node v[lo].1 v[lo].2 Tree.leaf Tree.leaf from rfl,
        insertAux_node_gt hab]
      rfl
    · rw [if_neg h1]
      by_cases h2 : hi = lo
      · rw [if_pos h2, List.getElem?_eq_getElem hlo, slice_one h2 hlen,
          show buildBal [v[lo]] = single v[lo].1 v[lo].2 from by simp [buildBal]]
        rfl
      · rw [if_neg h2]
        have hgap : 2 ≤ hi - lo := by omega
        set mid := lo + (hi - lo) / 2 with hmid
        have hmidlt : mid < v.length := by omega
        have hmid1 : lo + 1 ≤ mid := by omega
        have hmid2 : mid + 1 ≤ hi := by omega
        rw [List.getElem?_eq_getElem hmidlt]
        have hSl : ∀ q ∈ medianSeq f v lo (mid - 1), q.1 < v[mid].1 := by
          intro q hq
          obtain ⟨i, h1i, h2i, h3i⟩ := mem_medianSeq f v lo (mid - 1) q (by omega) hq
          have hilt : i < v.length := by omega
          rw [List.getElem?_eq_getElem hilt] at h3i
          obtain rfl := Option.some.inj h3i
          exact List.pairwise_iff_getElem.mp hv i mid hilt hmidlt (by omega)
        have hSr : ∀ q ∈ medianSeq f v (mid + 1) hi, v[mid].1 < q.1 := by
          intro q hq
          obtain ⟨i, h1i, h2i, h3i⟩ := mem_medianSeq f v (mid + 1) hi q (by omega) hq
          have hilt : i < v.length := by omega
          rw [List.getElem?_eq_getElem hilt] at h3i
          obtain rfl := Option.some.inj h3i
          exact List.pairwise_iff_getElem.mp hv mid i hmidlt hilt (by omega)
        rw [show (some v[mid]).toList
              ++ (medianSeq f v lo (mid - 1) ++ medianSeq f v (mid + 1) hi)
            = v[mid] :: (medianSeq f v lo (mid - 1) ++ medianSeq f v (mid + 1) hi)
            from rfl,
          insertAuxList_cons, insertAuxList_append,
          show insertAux v[mid].1 v[mid].2 Tree.leaf
            = Tree.node v[mid].1 v[mid].2 Tree.leaf Tree.leaf from rfl,
          insertAuxList_node_left _ hSl, insertAuxList_node_right _ hSr,
          ih v lo (mid - 1) hv (by omega) (by omega) (by omega),
          ih v (mid + 1) hi hv (by omega) (by omega) (by omega)]
        have hslen : (slice v lo hi).length = hi - lo + 1 := by
          simp only [slice, List.length_take, List.length_drop]
          omega
        obtain ⟨p, hp1, hp2⟩ := buildBal_two_le (slice v lo hi) (by rw [hslen]; omega)
        have hmm : (hi - lo + 1 - 1) / 2 = mid - lo := by omega
        rw [hslen, hmm] at hp1
        rw [hp2, hslen, hmm]
        have hpv : p = v[mid] := by
          simp only [slice] at hp1
          rw [List.getElem?_take, if_pos (by omega : mid - lo < hi - lo + 1),
            List.getElem?_drop, show lo + (mid - lo) = mid from by omega,
            List.getElem?_eq_getElem hmidlt] at hp1
          exact (Option.some.inj hp1).symm
        subst hpv
        have htake : (slice v lo hi).take (mid - lo) = slice v lo (mid - 1) := by
          simp only [slice]
          rw [List.take_take,
            show min (mid - lo) (hi - lo + 1) = mid - lo from by omega,
            show mid - 1 - lo + 1 = mid - lo from by omega]
        have hdrop : (slice v lo hi).drop (mid - lo + 1) = slice v (mid + 1) hi := by
          simp only [slice]
          rw [List.drop_take, List.drop_drop,
            show lo + (mid - lo + 1) = mid + 1 from by omega,
            show hi - lo + 1 - (mid - lo + 1) = hi - (mid + 1) + 1 from by omega]
        rw [htake, hdrop]

/-! ### The invariant gives strictly increasing in-order keys -/

theorem pairwise_keys_of_sorted :
    ∀ {t : Tree K V}, Sorted t → List.Pairwise (· < ·) (keys t) := by
  intro t
  induction t with
  | leaf => intro _; simp
  | node k v l r ihl ihr =>
    intro hs
    obtain ⟨hbl, hbr, hsl, hsr⟩ := hs
    rw [keys_node, List.pairwise_append]
    refine ⟨ihl hsl, ?_, ?_⟩
    · rw [List.pairwise_cons]
      exact ⟨fun x hx => hbr x hx, ihr hsr⟩
    · intro x hx y hy
      rcases List.mem_cons.mp hy with rfl | hy'
      · exact hbl x hx
      · exact lt_trans (hbl x hx) (hbr y hy')

theorem pairwise_fst_inorder (hs : Sorted t) :
    List.Pairwise (fun p q : K × V => p.1 < q.1) (inorder t) := by
  have hp := pairwise_keys_of_sorted hs
  unfold keys at hp
  rwa [List.pairwise_map] at hp

theorem nodup_fst_inorder (hs : Sorted t) : ((inorder t).map Prod.fst).Nodup := by
  have hp := pairwise_keys_of_sorted hs
  unfold keys at hp
  exact hp.imp ne_of_lt

/-! ### `balance` on a valid non-empty tree -/

theorem balance_eq_buildBal (hs : Sorted t) (hne : t ≠ Tree.leaf)
    (hlen : (inorder t).length < 2 ^ 64) :
    balance t = some (buildBal (inorder t)) := by
  have hp64 : (2 : Nat) ^ 64 = 18446744073709551616 := by norm_num
  simp only [balance]
  rw [iterList_eq_inorder]
  have hn : 1 ≤ (inorder t).length := by
    cases t with
    | leaf => exact absurd rfl hne
    | node k v' l r => simp; omega
  rw [hp64] at hlen
  have hwrap : ((inorder t).length + (2 ^ 64 - 1)) % 2 ^ 64 = (inorder t).length - 1 := by
    rw [hp64]
    omega
  rw [hwrap,
    insert_median_eq_insertList ((inorder t).length + 1) (inorder t) 0
      ((inorder t).length - 1) Tree.leaf (by omega) (by omega) (by omega)]
  have hsl : slice (inorder t) 0 ((inorder t).length - 1) = inorder t := by
    simp only [slice, List.drop_zero]
    rw [show (inorder t).length - 1 - 0 + 1 = (inorder t).length from by omega,
      List.take_length]
  have hperm := medianSeq_perm ((inorder t).length + 1) (inorder t) 0
    ((inorder t).length - 1) (by omega) (by omega) (by omega)
  rw [hsl] at hperm
  have hnd : ((medianSeq ((inorder t).length + 1) (inorder t) 0
      ((inorder t).length - 1)).map Prod.fst).Nodup :=
    List.Perm.nodup (hperm.map Prod.fst).symm (nodup_fst_inorder hs)
  rw [insertList_eq_insertAuxList _ hnd (by intro p _ hmem; simp at hmem),
    insertAuxList_medianSeq ((inorder t).length + 1) (inorder t) 0
      ((inorder t).length - 1) (pairwise_fst_inorder hs) (by omega) (by omega) (by omega),
    hsl]

/-! ### Writing through the reference returned by `operator[]` -/

theorem assign_node_self :
    assign (Tree.node k v' l r) k v = Tree.node k v l r := by
  simp only [assign]
  rw [if_pos ⟨lt_irrefl k, lt_irrefl k⟩]

theorem assign_node_lt (h : k < k') :
    assign (Tree.node k' v' l r) k v = Tree.node k' v' (assign l k v) r := by
  simp only [assign]
  rw [if_neg (fun hc => hc.2 h), if_pos h]

theorem assign_node_gt (h : k' < k) :
    assign (Tree.node k' v' l r) k v = Tree.node k' v' l (assign r k v) := by
  simp only [assign]
  rw [if_neg (fun hc => hc.1 h), if_neg (lt_asymm h)]

theorem find_assign :
    ∀ {t : Tree K V} {v0 : V}, find t k = some (k, v0) →
      find (assign t k v) k = some (k, v) := by
  intro t
  induction t with
  | leaf => intro v0 h; simp [find] at h
  | node k' v' l r ihl ihr =>
    intro v0 h
    rcases lt_trichotomy k k' with hlt | rfl | hgt
    · rw [find_node_lt hlt] at h
      rw [assign_node_lt hlt, find_node_lt hlt]
      exact ihl h
    · rw [assign_node_self, find_node_self]
    · rw [find_node_gt hgt] at h
      rw [assign_node_gt hgt, find_node_gt hgt]
      exact ihr h

/-! ### Pre-order re-insertion rebuilds a valid tree exactly -/

theorem preorder_perm_inorder : ∀ (t : Tree K V), (preorder t).Perm (inorder t) := by
  intro t
  induction t with
  | leaf => exact List.Perm.refl _
  | node k v l r ihl ihr =>
    simp only [preorder, inorder]
    exact (List.Perm.cons _ (List.Perm.append ihl ihr)).trans List.perm_middle.symm

theorem mem_preorder_keys {q : K × V} (h : q ∈ preorder t) : q.1 ∈ keys t := by
  have hm : q ∈ inorder t := (preorder_perm_inorder t).mem_iff.mp h
  exact mem_keys_iff.mpr ⟨q.2, by rwa [Prod.mk.eta]⟩

theorem insertSubtree_eq_insertList :
    ∀ (s t : Tree K V), insertSubtree t s = insertList t (preorder s) := by
  intro s
  induction s with
  | leaf => intro t; rfl
  | node k v l r ihl ihr =>
    intro t
    simp only [insertSubtree, preorder]
    rw [ihl, ihr, insertList_cons, insertList_append]

theorem insertAuxList_preorder_sorted :
    ∀ {s : Tree K V}, Sorted s → insertAuxList Tree.leaf (preorder s) = s := by
  intro s
  induction s with
  | leaf => intro _; rfl
  | node k v l r ihl ihr =>
    intro hs
    obtain ⟨hbl, hbr, hsl, hsr⟩ := hs
    simp only [preorder]
    rw [insertAuxList_cons, insertAuxList_append,
      show insertAux k v Tree.leaf = Tree.node k v Tree.leaf Tree.leaf from rfl,
      insertAuxList_node_left _ (fun q hq => hbl q.1 (mem_preorder_keys hq)),
      insertAuxList_node_right _ (fun q hq => hbr q.1 (mem_preorder_keys hq)),
      ihl hsl, ihr hsr]

theorem nodup_fst_preorder (hs : Sorted t) : ((preorder t).map Prod.fst).Nodup :=
  List.Perm.nodup ((preorder_perm_inorder t).map Prod.fst).symm (nodup_fst_inorder hs)

/-- The copy constructor reproduces a valid non-empty source tree exactly,
node for node: pre-order re-insertion through `insert` rebuilds the same
shape (development theorem backing spec §4.1's shape-preserving copy for the
non-empty case). -/
theorem copyCtor_sorted_exact (hs : Sorted t) (hne : t ≠ Tree.leaf) :
    copyCtor t = some t := by
  cases t with
  | leaf => exact absurd rfl hne
  | node k v l r =>
    simp only [copyCtor]
    rw [insertSubtree_eq_insertList,
      insertList_eq_insertAuxList _ (nodup_fst_preorder hs)
        (by intro p _ hmem; simp at hmem),
      insertAuxList_preorder_sorted hs]

end BST

namespace BST

/-! ## Claim theorems -/

/-- C1: the claim says re-inserting an existing key overwrites the value in
place with no structural change (no node created or destroyed, topology
unchanged).  The code violates it: after the `break` in the equivalent-key
branch, lines 429-430 still run and reset a child of `previous_node` to a
freshly allocated node.  Evaluating the embedded code: insert keys 3, 5, 7,
then re-insert key 5 — the node holding 7 is destroyed (the tree drops from
three keys to two), a new node is allocated, and the topology changes. -/
theorem insert_existing_key_structural_damage :
    iterList (insert (insertList (Tree.leaf : Tree Int Int) [(3, 0), (5, 0), (7, 0)]) 5 1)
        = [(3, 0), (5, 1)]
      ∧ size (insert (insertList (Tree.leaf : Tree Int Int) [(3, 0), (5, 0), (7, 0)]) 5 1)
        = 2 := by
  constructor <;> decide

/-- C2: the claim says `balance()` is total on every tree including the
empty one.  The code violates it: on an empty tree `pairs.size() - 1`
wraps around to `2^64 - 1` and `insert_median` indexes the empty vector far
out of bounds; the embedding returns `none` (failure) on the empty tree. -/
theorem balance_empty_fails : balance (Tree.leaf : Tree Int Int) = none := by
  decide

/-- C3: the claim says copy construction succeeds for every source tree
including the empty tree.  The code violates it: `BST(const BST& other)`
runs `insert(*other.root)` without a null check, dereferencing a null
`unique_ptr` when `other` is empty; the embedding returns `none` there.
(For valid non-empty sources the copy is exact — see
`copyCtor_sorted_exact`.) -/
theorem copyCtor_empty_fails : copyCtor (Tree.leaf : Tree Int Int) = none := rfl

/-- C4: for every valid non-empty tree (BST invariant, fewer than `2^64`
elements), `balance()` succeeds, preserves the in-order key/value sequence
exactly (hence the key→value mapping as a set), and the rebuilt tree —
produced by inserting the left-biased median `mid = lo + (hi-lo)/2` first
and recursing on the two halves — has height at most `⌈log₂(n+1)⌉`. -/
theorem balance_preserves_pairs_and_height {K V : Type} [LinearOrder K]
    (t : Tree K V) (hs : Sorted t) (hne : t ≠ Tree.leaf)
    (hlen : (inorder t).length < 2 ^ 64) :
    ∃ t', balance t = some t' ∧ inorder t' = inorder t ∧
      height t' ≤ Nat.clog 2 ((inorder t).length + 1) :=
  ⟨buildBal (inorder t), balance_eq_buildBal hs hne hlen,
    inorder_buildBal (inorder t).length _ le_rfl,
    height_buildBal (inorder t).length _ le_rfl⟩

theorem balance_preserves_pairs_and_height_witness :
    Sorted (insertList (Tree.leaf : Tree Int Int) [(5, 0), (3, 0), (8, 0), (1, 0), (4, 0)]) ∧
    (∃ t', balance (insertList (Tree.leaf : Tree Int Int) [(5, 0), (3, 0), (8, 0), (1, 0), (4, 0)]) = some t' ∧
      inorder t' = inorder (insertList (Tree.leaf : Tree Int Int) [(5, 0), (3, 0), (8, 0), (1, 0), (4, 0)]) ∧
      height t' ≤ Nat.clog 2
        ((inorder (insertList (Tree.leaf : Tree Int Int) [(5, 0), (3, 0), (8, 0), (1, 0), (4, 0)])).length + 1)) :=
  ⟨by decide,
    balance_preserves_pairs_and_height
      (insertList (Tree.leaf : Tree Int Int) [(5, 0), (3, 0), (8, 0), (1, 0), (4, 0)])
      (by decide) (by decide) (by decide)⟩

/-- C5: the claim says in-order iteration after any insertion sequence
(duplicates allowed) yields strictly ascending keys with no key visited
twice.  The code violates it, for the same reason as C1: inserting
`(5, a)` then `(5, c)` leaves two nodes with key 5, and iterating from
`begin()` with the successor algorithm visits key 5 twice. -/
theorem iterate_after_duplicate_insert_repeats_key :
    iterList (insertList (Tree.leaf : Tree Int Int) [(5, 0), (5, 1)]) = [(5, 1), (5, 1)] := by
  decide

/-- C6: on a valid tree, the read-only element access raises the
`KeyNotFound` error (the `std::out_of_range` with this exact message) if
and only if no stored key is equivalent to the requested key, and when an
equivalent node exists it returns that node's value.  The const member
function cannot modify the tree, which the embedding reflects by returning
only the `Except` value. -/
theorem const_access_raises_iff_absent {K V : Type} [LinearOrder K]
    (t : Tree K V) (k : K) (hs : Sorted t) :
    (atConst t k = Except.error keyNotFoundMessage ↔ k ∉ keys t) ∧
    (∀ v, (k, v) ∈ inorder t → atConst t k = Except.ok v) := by
  constructor
  · constructor
    · intro he hmem
      obtain ⟨v0, hv0⟩ := mem_keys_iff.mp hmem
      rw [show atConst t k = Except.ok v0 from by
        simp [atConst, find_eq_some_of_mem hs hv0]] at he
      exact Except.noConfusion he
    · intro hnm
      simp [atConst, find_eq_none_of_not_mem hnm]
  · intro v hv
    simp [atConst, find_eq_some_of_mem hs hv]

theorem const_access_raises_iff_absent_witness :
    Sorted (insertList (Tree.leaf : Tree Int Int) [(1, 10)]) ∧
    atConst (insertList (Tree.leaf : Tree Int Int) [(1, 10)]) 1 = Except.ok 10 ∧
    atConst (insertList (Tree.leaf : Tree Int Int) [(1, 10)]) 2
      = Except.error keyNotFoundMessage :=
  ⟨by decide,
    (const_access_raises_iff_absent (insertList (Tree.leaf : Tree Int Int) [(1, 10)]) 1
      (by decide)).2 10 (by decide),
    (const_access_raises_iff_absent (insertList (Tree.leaf : Tree Int Int) [(1, 10)]) 2
      (by decide)).1.mpr (by decide)⟩

/-- C7: on a valid tree, mutable element access returns the stored value
unchanged when the key is present; when it is absent, it inserts the
default-constructed value, the returned reference reads that default, and
writing `v` through the reference makes a subsequent `find` of the key
dereference to `v`. -/
theorem mut_access_found_or_default_insert {K V : Type} [LinearOrder K] [Inhabited V]
    (t : Tree K V) (k : K) (hs : Sorted t) :
    (∀ v0, (k, v0) ∈ inorder t → atMut t k = (t, some v0)) ∧
    (k ∉ keys t →
      atMut t k = (insert t k default, some (default : V)) ∧
      find (insert t k default) k = some (k, (default : V)) ∧
      ∀ v, find (assign (insert t k default) k v) k = some (k, v)) := by
  constructor
  · intro v0 hmem
    simp [atMut, find_eq_some_of_mem hs hmem]
  · intro hnm
    have hf := find_eq_none_of_not_mem hnm
    have hf2 : find (insert t k default) k = some (k, (default : V)) := by
      rw [insert_eq_insertAux hnm]
      exact find_insertAux_self hnm
    exact ⟨by simp [atMut, hf, hf2], hf2, fun v => find_assign hf2⟩

theorem mut_access_found_or_default_insert_witness :
    Sorted (insertList (Tree.leaf : Tree Int Int) [(1, 10)]) ∧
    atMut (insertList (Tree.leaf : Tree Int Int) [(1, 10)]) 1
      = (insertList (Tree.leaf : Tree Int Int) [(1, 10)], some 10) ∧
    find (insert (insertList (Tree.leaf : Tree Int Int) [(1, 10)]) 2 default) 2
      = some (2, (default : Int)) ∧
    find (assign (insert (insertList (Tree.leaf : Tree Int Int) [(1, 10)]) 2 default) 2 7) 2
      = some (2, 7) :=
  ⟨by decide,
    (mut_access_found_or_default_insert (insertList (Tree.leaf : Tree Int Int) [(1, 10)]) 1
      (by decide)).1 10 (by decide),
    ((mut_access_found_or_default_insert (insertList (Tree.leaf : Tree Int Int) [(1, 10)]) 2
      (by decide)).2 (by decide)).2.1,
    ((mut_access_found_or_default_insert (insertList (Tree.leaf : Tree Int Int) [(1, 10)]) 2
      (by decide)).2 (by decide)).2.2 7⟩

/-- C8: on a valid tree, `find` is a pure walk (the embedding returns only
the iterator, the tree is untouched); it yields the unique node carrying
the requested key exactly when a pair with that key is stored, yields the
past-the-end iterator (`none`) exactly when the key is absent, and any
node it returns carries a key equivalent to the one sought. -/
theorem find_locates_or_end {K V : Type} [LinearOrder K]
    (t : Tree K V) (k : K) (hs : Sorted t) :
    (∀ v, find t k = some (k, v) ↔ (k, v) ∈ inorder t) ∧
    (find t k = none ↔ k ∉ keys t) ∧
    (∀ p, find t k = some p → p.1 = k) := by
  refine ⟨fun v => ⟨fun h => (find_eq_some_imp h).2, fun h => find_eq_some_of_mem hs h⟩,
    ⟨?_, fun h => find_eq_none_of_not_mem h⟩, fun p h => (find_eq_some_imp h).1⟩
  intro hn hmem
  obtain ⟨v0, hv0⟩ := mem_keys_iff.mp hmem
  rw [find_eq_some_of_mem hs hv0] at hn
  exact Option.noConfusion hn

theorem find_locates_or_end_witness :
    Sorted (insertList (Tree.leaf : Tree Int Int) [(1, 10), (3, 30)]) ∧
    find (insertList (Tree.leaf : Tree Int Int) [(1, 10), (3, 30)]) 3 = some (3, 30) ∧
    find (insertList (Tree.leaf : Tree Int Int) [(1, 10), (3, 30)]) 2 = none :=
  ⟨by decide,
    ((find_locates_or_end (insertList (Tree.leaf : Tree Int Int) [(1, 10), (3, 30)]) 3
      (by decide)).1 30).mpr (by decide),
    (find_locates_or_end (insertList (Tree.leaf : Tree Int Int) [(1, 10), (3, 30)]) 2
      (by decide)).2.1.mpr (by decide)⟩

/-- C9: move construction and move assignment hand the whole node graph to
the destination (same key/value pairs, in fact the identical root) and
leave the source with a null root, whose `begin()` equals `end()` (both the
past-the-end iterator) and whose iteration is empty.  The embedding of
`root.swap`/`root = std::move(...)` is a pair shuffle with no per-element
work and no comparator use. -/
theorem move_transfers_and_empties_source {K V : Type} [LinearOrder K]
    (t s : Tree K V) :
    inorder (moveCtor t).1 = inorder t ∧ begin (moveCtor t).2 = none ∧
    iterList (moveCtor t).2 = [] ∧
    inorder (moveAssign s t).1 = inorder t ∧ begin (moveAssign s t).2 = none ∧
    iterList (moveAssign s t).2 = [] :=
  ⟨rfl, rfl, rfl, rfl, rfl, rfl⟩

/-- C10: inserting a key not stored in the tree adds exactly one node —
the size grows by one, the stored pairs afterwards are exactly the old
pairs plus `(k, v)`, and `find` locates the new pair.  Every previously
stored binding is untouched (the membership equivalence in both
directions). -/
theorem insert_fresh_adds_one_leaf {K V : Type} [LinearOrder K]
    (t : Tree K V) (k : K) (v : V) (h : k ∉ keys t) :
    size (insert t k v) = size t + 1 ∧
    (∀ p, p ∈ inorder (insert t k v) ↔ p ∈ inorder t ∨ p = (k, v)) ∧
    find (insert t k v) k = some (k, v) := by
  rw [insert_eq_insertAux h]
  exact ⟨size_insertAux h, fun p => mem_inorder_insertAux h p, find_insertAux_self h⟩

theorem insert_fresh_adds_one_leaf_witness :
    (2 : Int) ∉ keys (insertList (Tree.leaf : Tree Int Int) [(1, 10), (3, 30)]) ∧
    size (insert (insertList (Tree.leaf : Tree Int Int) [(1, 10), (3, 30)]) 2 20)
      = size (insertList (Tree.leaf : Tree Int Int) [(1, 10), (3, 30)]) + 1 ∧
    find (insert (insertList (Tree.leaf : Tree Int Int) [(1, 10), (3, 30)]) 2 20) 2
      = some (2, 20) ∧
    ((2, 20) ∈ inorder (insert (insertList (Tree.leaf : Tree Int Int) [(1, 10), (3, 30)]) 2 20)
      ↔ (2, 20) ∈ inorder (insertList (Tree.leaf : Tree Int Int) [(1, 10), (3, 30)])
        ∨ ((2, 20) : Int × Int) = (2, 20)) :=
  ⟨by decide,
    (insert_fresh_adds_one_leaf (insertList (Tree.leaf : Tree Int Int) [(1, 10), (3, 30)])
      2 20 (by decide)).1,
    (insert_fresh_adds_one_leaf (insertList (Tree.leaf : Tree Int Int) [(1, 10), (3, 30)])
      2 20 (by decide)).2.2,
    (insert_fresh_adds_one_leaf (insertList (Tree.leaf : Tree Int Int) [(1, 10), (3, 30)])
      2 20 (by decide)).2.1 (2, 20)⟩

end BST
